import Mathlib

/-!
A verification development for the finance_app repository's aggregation,
currency-conversion, category-resolution, recurring-materialization and
forecasting logic (finance_app/services.py and finance_app/routes.py).

Modelling conventions:
* dates are Python `date.toordinal()` values (`Nat`);
* monetary values are exact rationals (`ℚ`);
* nullable columns are `Option`;
* a user's state is passed explicitly: transaction list, budget list,
  per-user currency-rate table, base currency, recurring rules, keyword rules.
-/

namespace FinanceApp

/-- The `type` column of a transaction or recurring rule: "expense" or "income". -/
inductive TxKind where
  | expense
  | income
deriving DecidableEq

/-- A row of the transactions table (the columns the services read). -/
structure Tx where
  date : Nat
  type : TxKind
  category : String
  amount : ℚ
  currency : Option String
  amount_base : Option ℚ
  description : Option String
deriving DecidableEq

/-- A row of the currency_rates table. -/
structure CurrencyRate where
  code : String
  rate_to_base : ℚ
deriving DecidableEq

/-- A row of the budgets table. -/
structure Budget where
  period_start : Nat
  period_end : Nat
  category : Option String
  amount : ℚ
deriving DecidableEq

/-- The `frequency` column of a recurring rule. Any string other than
"daily" and "weekly" takes the `else` (monthly) branch in the source, so the
third constructor stands for every such value. -/
inductive Freq where
  | daily
  | weekly
  | monthly
deriving DecidableEq

/-- A row of the recurring_rules table (`next_run` is NOT NULL in the schema). -/
structure RecurringRule where
  name : String
  type : TxKind
  amount : ℚ
  currency : Option String
  category : String
  description : Option String
  frequency : Freq
  next_run : Nat
deriving DecidableEq

/-- A row of the category_rules table. -/
structure CategoryRule where
  keyword : String
  category : String
deriving DecidableEq

/-- services.convert_to_base over an explicit base currency and rate table.
Python's `if not currency or currency == base` is true for None, "" and the
base code; `CurrencyRate.query.filter_by(code=currency).first()` is the first
rate whose code equals `currency`; a missing rate falls back to 1:1. -/
def convert_to_base (base : String) (rates : List CurrencyRate) (amount : ℚ)
    (currency : Option String) : ℚ :=
  match currency with
  | none => amount
  | some c =>
      if c = "" ∨ c = base then amount
      else
        match rates.find? (fun r => r.code == c) with
        | some r => amount * r.rate_to_base
        | none => amount

/-- The date test of services.get_transactions_for_period: optional inclusive
bounds (`date >= start`, `date <= end`). -/
def inPeriod (start stop : Option Nat) (t : Tx) : Bool :=
  (match start with | none => true | some s => decide (s ≤ t.date)) &&
  (match stop with | none => true | some e => decide (t.date ≤ e))

/-- The category test of services.get_transactions_for_period: Python applies
the filter only when `category` is truthy (neither None nor ""). -/
def catFilter (category : Option String) (t : Tx) : Bool :=
  match category with
  | none => true
  | some c => if c = "" then true else t.category == c

/-- services.get_transactions_for_period as a list filter. -/
def get_transactions_for_period (txs : List Tx) (start stop : Option Nat)
    (category : Option String) : List Tx :=
  (txs.filter (inPeriod start stop)).filter (catFilter category)

/-- The amount one row contributes to every services.py aggregate. The source
writes `func.sum(Transaction.amount_base if Transaction.amount_base is not None
else Transaction.amount)`: the conditional is evaluated once on the column
object, which is never `None`, so the summed column is always `amount_base`,
and SQL SUM skips NULL rows — a row with NULL `amount_base` contributes 0. -/
def aggAmount (t : Tx) : ℚ := t.amount_base.getD 0

/-- The spec's normalized amount, stated for comparison with `aggAmount`:
"normalized amount is `amount_base` if present, else `amount`". -/
def specNormalizedAmount (t : Tx) : ℚ := t.amount_base.getD t.amount

/-- `type == "expense"`. -/
def isExpense (t : Tx) : Bool :=
  match t.type with
  | .expense => true
  | .income => false

/-- `type == "income"`. -/
def isIncome (t : Tx) : Bool :=
  match t.type with
  | .expense => false
  | .income => true

/-- The sign applied to a row in the signed aggregates:
`-1 if t_type == "expense" else 1`. -/
def signOf : TxKind → ℚ
  | .expense => -1
  | .income => 1

/-- One row's signed contribution to a net aggregate. -/
def signedAgg (t : Tx) : ℚ := signOf t.type * aggAmount t

/-- `SUM(amount_base)` over a row set, with `or 0` for the empty/NULL case. -/
def sumAgg (txs : List Tx) : ℚ := (txs.map aggAmount).sum

/-- services.total_balance: income minus expenses for the period. -/
def total_balance (txs : List Tx) (start stop : Option Nat) : ℚ :=
  sumAgg ((get_transactions_for_period txs start stop none).filter isIncome) -
    sumAgg ((get_transactions_for_period txs start stop none).filter isExpense)

/-- services.summarize_category_totals, read at one key of the returned dict
(an absent category reads as 0): the grouped signed sums collapse to the signed
sum over that category's rows in the period. -/
def summarize_category_totals (txs : List Tx) (start stop : Option Nat)
    (category : String) : ℚ :=
  (((get_transactions_for_period txs start stop none).filter
      (fun t => t.category == category)).map signedAgg).sum

/-- The ORDER BY Transaction.date of services.balance_over_time: a stable
sort by date (ties keep a deterministic, input-fixed order). -/
def sortByDate (txs : List Tx) : List Tx :=
  List.insertionSort (fun a b => a.date ≤ b.date) txs

/-- The running-total loop of services.balance_over_time: the selected value
is the `amount_base` column, `amount or 0.0` turns NULL into 0. -/
def balancePoints (acc : ℚ) : List Tx → List (Nat × ℚ)
  | [] => []
  | t :: ts =>
      (t.date, acc + signedAgg t) :: balancePoints (acc + signedAgg t) ts

/-- services.balance_over_time: chronological running total over all of the
user's transactions. -/
def balance_over_time (txs : List Tx) : List (Nat × ℚ) :=
  balancePoints 0 (sortByDate txs)

/-- services.budget_progress: for every budget active on `on_date`, the spent
expense sum inside the budget period (and category filter, when truthy) and
`percent = min((spent / amount) * 100 if budget.amount else 0, 999)`. -/
def budget_progress (txs : List Tx) (budgets : List Budget) (on_date : Nat) :
    List (Budget × ℚ × ℚ) :=
  (budgets.filter (fun b =>
      decide (b.period_start ≤ on_date) && decide (on_date ≤ b.period_end))).map
    (fun b =>
      let spent := sumAgg ((get_transactions_for_period txs (some b.period_start)
        (some b.period_end) b.category).filter isExpense)
      (b, spent, min (if b.amount = 0 then 0 else spent / b.amount * 100) 999))

/-- The per-occurrence advance of routes._process_recurring: +1 day, +7 days
("weekly": timedelta(weeks=1)), else +30 days. -/
def freqStep : Freq → Nat
  | .daily => 1
  | .weekly => 7
  | .monthly => 30

/-- Python `rule.description or f"Recurring: {rule.name}"` (None and "" are
falsy). -/
def recurDescription (r : RecurringRule) : String :=
  match r.description with
  | none => "Recurring: " ++ r.name
  | some s => if s = "" then "Recurring: " ++ r.name else s

/-- The Transaction routes._process_recurring inserts for rule `r` dated `d`. -/
def recurTx (base : String) (rates : List CurrencyRate) (r : RecurringRule)
    (d : Nat) : Tx :=
  { date := d
    type := r.type
    category := r.category
    amount := r.amount
    currency := r.currency
    amount_base := some (convert_to_base base rates r.amount r.currency)
    description := some (recurDescription r) }

/-- The inner `while rule.next_run <= today` loop of routes._process_recurring
for one rule: the inserted transactions in order, and the advanced rule. -/
def materializeRule (base : String) (rates : List CurrencyRate) (cutoff : Nat)
    (r : RecurringRule) : List Tx × RecurringRule :=
  if _h : r.next_run ≤ cutoff then
    let rest := materializeRule base rates cutoff
      { r with next_run := r.next_run + freqStep r.frequency }
    (recurTx base rates r r.next_run :: rest.1, rest.2)
  else ([], r)
termination_by cutoff + 1 - r.next_run
decreasing_by
  cases r.frequency <;> simp [freqStep] <;> omega

/-- routes._process_recurring over the user's rule list: transactions are
appended in `session.add` order; every rule is advanced in place. -/
def process_recurring (base : String) (rates : List CurrencyRate) (cutoff : Nat)
    (txs : List Tx) : List RecurringRule → List Tx × List RecurringRule
  | [] => (txs, [])
  | r :: rs =>
      let p := materializeRule base rates cutoff r
      let q := process_recurring base rates cutoff (txs ++ p.1) rs
      (q.1, p.2 :: q.2)

/-- Lower-cased character list of a string (Python `str.lower()`, per
character as this app's ASCII keywords need). -/
def lowerChars (s : String) : List Char :=
  s.data.map Char.toLower

/-- Needle-at-head test used by the substring check. -/
def headMatch : List Char → List Char → Bool
  | [], _ => true
  | _ :: _, [] => false
  | a :: as, b :: bs => a == b && headMatch as bs

/-- Python's `needle in hay` substring test on character lists. -/
def subMatch (needle : List Char) : List Char → Bool
  | [] => needle.isEmpty
  | b :: bs => headMatch needle (b :: bs) || subMatch needle bs

/-- `rule.keyword.lower() in desc_lower` of routes._apply_category_rule. -/
def ruleMatches (descLower : List Char) (rule : CategoryRule) : Bool :=
  subMatch (lowerChars rule.keyword) descLower

/-- The loop body of routes._apply_category_rule's best-rule scan: a matching
rule replaces the best only when strictly longer. -/
def bestStep (descLower : List Char) (best : Option CategoryRule)
    (rule : CategoryRule) : Option CategoryRule :=
  if ruleMatches descLower rule then
    match best with
    | none => some rule
    | some b => if rule.keyword.length > b.keyword.length then some rule else best
  else best

/-- The best-rule scan of routes._apply_category_rule. -/
def bestRule (descLower : List Char) (rules : List CategoryRule) :
    Option CategoryRule :=
  rules.foldl (bestStep descLower) none

/-- routes._apply_category_rule. Python's `if not description` is true for
None and ""; `if current_category and current_category != "Other"` keeps a
truthy non-fallback category. -/
def apply_category_rule (rules : List CategoryRule) (description : Option String)
    (current_category : String) : String :=
  match description with
  | none => current_category
  | some d =>
      if d = "" then current_category
      else if current_category ≠ "" ∧ current_category ≠ "Other" then
        current_category
      else
        match bestRule (lowerChars d) rules with
        | some b => b.category
        | none => current_category

/-- The hit test of services.forecast_balance: `delta % step == 0 and
delta >= 0`, step 1/7/30 by frequency (`delta % 1 == 0` kept as written). -/
def ruleHit (f : Freq) (delta : Int) : Bool :=
  match f with
  | .daily => decide (delta % 1 = 0 ∧ 0 ≤ delta)
  | .weekly => decide (delta % 7 = 0 ∧ 0 ≤ delta)
  | .monthly => decide (delta % 30 = 0 ∧ 0 ≤ delta)

/-- services.forecast_balance's daily drift: the trailing-90-day net divided
by 90 when that window has any transaction, else 0. -/
def forecastDailyNet (txs : List Tx) (today : Nat) : ℚ :=
  if (get_transactions_for_period txs (some (today - 90)) (some today) none).isEmpty
  then 0
  else total_balance txs (some (today - 90)) (some today) / 90

/-- The day loop of services.forecast_balance: remaining days, current day
offset `i`, running projected balance. -/
def forecastAux (base : String) (rates : List CurrencyRate)
    (rules : List RecurringRule) (dailyNet : ℚ) (today : Nat) :
    Nat → Nat → ℚ → List (Nat × ℚ)
  | 0, _, _ => []
  | rem + 1, i, running =>
      let day := today + i
      let r2 := rules.foldl
        (fun acc r =>
          if ruleHit r.frequency ((day : Int) - (r.next_run : Int)) then
            acc + signOf r.type * convert_to_base base rates r.amount r.currency
          else acc)
        (running + dailyNet)
      (day, r2) :: forecastAux base rates rules dailyNet today rem (i + 1) r2

/-- services.forecast_balance: current balance, drift, then the day loop for
`i` in `1..days`. -/
def forecast_balance (base : String) (rates : List CurrencyRate) (txs : List Tx)
    (rules : List RecurringRule) (today : Nat) (days : Nat) : List (Nat × ℚ) :=
  forecastAux base rates rules (forecastDailyNet txs today) today days 1
    (total_balance txs none none)

/-- One rule's contribution to one projected day, as the claim reads it: the
signed base-converted amount when the day is a hit, else 0. -/
def ruleImpact (base : String) (rates : List CurrencyRate) (day : Nat)
    (r : RecurringRule) : ℚ :=
  if ruleHit r.frequency ((day : Int) - (r.next_run : Int)) then
    signOf r.type * convert_to_base base rates r.amount r.currency
  else 0

/-- The total recurring impact of one projected day per the claim's wording. -/
def dayImpact (base : String) (rates : List CurrencyRate)
    (rules : List RecurringRule) (day : Nat) : ℚ :=
  (rules.map (ruleImpact base rates day)).sum

/-- The claim's projected balance after `i` future days: start balance, plus
daily drift each day, plus that day's recurring impacts. -/
def projectedAt (base : String) (rates : List CurrencyRate)
    (rules : List RecurringRule) (start dailyNet : ℚ) (today : Nat) : Nat → ℚ
  | 0 => start
  | i + 1 => projectedAt base rates rules start dailyNet today i + dailyNet +
      dayImpact base rates rules (today + i + 1)

/-- The forecast output as the claim describes it: `days` consecutive future
days starting the day after today, each with its projected balance. -/
def forecastSpec (base : String) (rates : List CurrencyRate)
    (rules : List RecurringRule) (start dailyNet : ℚ) (today : Nat)
    (days : Nat) : List (Nat × ℚ) :=
  (List.range days).map (fun i =>
    (today + 1 + i, projectedAt base rates rules start dailyNet today (i + 1)))

/-- Proleptic-Gregorian leap year, as Python's datetime defines it. -/
def isLeap (y : Nat) : Bool :=
  (y % 4 == 0 && y % 100 != 0) || y % 400 == 0

/-- Length of month `m` of year `y`. -/
def daysInMonth (y m : Nat) : Nat :=
  if m = 2 then (if isLeap y then 29 else 28)
  else if m = 4 ∨ m = 6 ∨ m = 9 ∨ m = 11 then 30
  else 31

/-- Days of year `y` before month `m`. -/
def daysBeforeMonth (y : Nat) : Nat → Nat
  | 0 => 0
  | 1 => 0
  | m + 1 => daysBeforeMonth y m + daysInMonth y m

/-- Python `date(y, m, d).toordinal()`: day 1 is 0001-01-01. -/
def toOrdinal (y m d : Nat) : Nat :=
  365 * (y - 1) + (y - 1) / 4 - (y - 1) / 100 + (y - 1) / 400 +
    daysBeforeMonth y m + d

/-- A legacy row: `amount_base` NULL, original amount 100, income. -/
def legacyTx : Tx :=
  { date := 1
    type := .income
    category := "Income"
    amount := 100
    currency := none
    amount_base := none
    description := none }

/-! ## Helper lemmas -/

theorem mem_of_mem_period {txs : List Tx} {start stop : Option Nat}
    {cat : Option String} {t : Tx}
    (h : t ∈ get_transactions_for_period txs start stop cat) : t ∈ txs := by
  unfold get_transactions_for_period at h
  exact List.mem_of_mem_filter (List.mem_of_mem_filter h)

theorem aggAmount_nonneg {t : Tx} (h : ∀ b ∈ t.amount_base, 0 ≤ b) :
    0 ≤ aggAmount t := by
  unfold aggAmount
  cases hb : t.amount_base with
  | none => simp
  | some q => simpa using h q hb

theorem sumAgg_nonneg {l : List Tx} (h : ∀ t ∈ l, 0 ≤ aggAmount t) :
    0 ≤ sumAgg l := by
  unfold sumAgg
  apply List.sum_nonneg
  intro x hx
  obtain ⟨t, ht, rfl⟩ := List.mem_map.mp hx
  exact h t ht

/-! ## Claim theorems -/

/-- C9: with an empty or missing description, routes._apply_category_rule
returns the caller-supplied category unchanged without consulting any keyword
rule, whatever that category is ("Other" included). -/
theorem resolver_keeps_category_on_empty_description
    (rules : List CategoryRule) (c : String) :
    apply_category_rule rules none c = c ∧
    apply_category_rule rules (some "") c = c := by
  exact ⟨rfl, by simp [apply_category_rule]⟩

/-- C5: the conversion contract of services.convert_to_base — identity for a
missing currency and for the base currency; multiplication by the stored
`rate_to_base` for a currency with a per-user rate; identity (1:1 fallback,
no error) when no rate is stored. The hypothesis records the settings route's
invariant that stored rate codes are non-empty. -/
theorem convert_to_base_contract (base : String) (rates : List CurrencyRate)
    (a : ℚ) (hcodes : ∀ r ∈ rates, r.code ≠ "") :
    convert_to_base base rates a none = a ∧
    convert_to_base base rates a (some base) = a ∧
    (∀ c r, c ≠ base → rates.find? (fun x => x.code == c) = some r →
      convert_to_base base rates a (some c) = a * r.rate_to_base) ∧
    (∀ c, c ≠ base → rates.find? (fun x => x.code == c) = none →
      convert_to_base base rates a (some c) = a) := by
  refine ⟨rfl, by simp [convert_to_base], ?_, ?_⟩
  · intro c r hne hfind
    have hcode : r.code = c := by
      have h1 := List.find?_some hfind
      simpa using h1
    have hmem : r ∈ rates := List.mem_of_find?_eq_some hfind
    have hce : c ≠ "" := hcode ▸ hcodes r hmem
    simp [convert_to_base, hce, hne, hfind]
  · intro c hne hfind
    by_cases hce : c = ""
    · simp [convert_to_base, hce]
    · simp [convert_to_base, hce, hne, hfind]

/-- Witness for C5 at a concrete rate table. -/
theorem convert_to_base_contract_witness :
    convert_to_base "USD" [⟨"EUR", 2⟩] 5 (some "EUR") = 10 ∧
    convert_to_base "USD" [⟨"EUR", 2⟩] 5 (some "JPY") = 5 ∧
    convert_to_base "USD" [⟨"EUR", 2⟩] 5 none = 5 := by
  have h := convert_to_base_contract "USD" [⟨"EUR", 2⟩] 5 (by decide)
  refine ⟨?_, h.2.2.2 "JPY" (by decide) (by decide), h.1⟩
  have h2 := h.2.2.1 "EUR" ⟨"EUR", 2⟩ (by decide) (by decide)
  rw [h2]
  norm_num

/-- C1 is a code bug, evidenced here: the services.py aggregates add
`aggAmount` (0 for a NULL `amount_base`), not the spec's fallback
`specNormalizedAmount`; a legacy income row of amount 100 with NULL
`amount_base` contributes 0 to the net total, the category totals and the
balance series, where the spec requires 100. -/
theorem legacy_rows_contribute_zero_not_amount :
    aggAmount legacyTx = 0 ∧
    specNormalizedAmount legacyTx = 100 ∧
    total_balance [legacyTx] none none = 0 ∧
    summarize_category_totals [legacyTx] none none "Income" = 0 ∧
    balance_over_time [legacyTx] = [(1, 0)] ∧
    total_balance [legacyTx] none none ≠ specNormalizedAmount legacyTx := by
  refine ⟨rfl, rfl, ?_, ?_, ?_, ?_⟩ <;>
    simp [total_balance, summarize_category_totals, balance_over_time,
      balancePoints, sortByDate, get_transactions_for_period, inPeriod,
      catFilter, sumAgg, signedAgg, signOf, aggAmount, specNormalizedAmount,
      legacyTx, List.insertionSort, isIncome, isExpense]

/-- C6: each budget_progress entry's percent is
`min((spent / amount) * 100, 999)` with a zero-amount guard giving 0, and —
under the app's positivity invariants on transaction amounts and budget
amounts — every percent lies in `[0, 999]`. -/
theorem budget_progress_percent_guard_and_bound
    (txs : List Tx) (budgets : List Budget) (on_date : Nat)
    (htx : ∀ t ∈ txs, 0 < t.amount ∧ ∀ b ∈ t.amount_base, 0 ≤ b)
    (hbudget : ∀ b ∈ budgets, 0 ≤ b.amount) :
    ∀ e ∈ budget_progress txs budgets on_date,
      e.2.2 = min (if e.1.amount = 0 then 0 else e.2.1 / e.1.amount * 100) 999 ∧
      (e.1.amount = 0 → e.2.2 = 0) ∧
      0 ≤ e.2.2 ∧ e.2.2 ≤ 999 := by
  intro e he
  unfold budget_progress at he
  obtain ⟨b, hbmem, rfl⟩ := List.mem_map.mp he
  have hbb : b ∈ budgets := List.mem_of_mem_filter hbmem
  have hspent : 0 ≤ sumAgg ((get_transactions_for_period txs (some b.period_start)
      (some b.period_end) b.category).filter isExpense) := by
    apply sumAgg_nonneg
    intro t ht
    exact aggAmount_nonneg (htx t (mem_of_mem_period (List.mem_of_mem_filter ht))).2
  by_cases hz : b.amount = 0
  · simp [hz]
  · have hpos : 0 < b.amount := lt_of_le_of_ne (hbudget b hbb) (Ne.symm hz)
    have h1 : 0 ≤ (sumAgg ((get_transactions_for_period txs (some b.period_start)
        (some b.period_end) b.category).filter isExpense)) / b.amount * 100 := by
      positivity
    refine ⟨rfl, fun hc => absurd hc hz, ?_, min_le_right _ _⟩
    simp only [hz, if_false]
    exact le_min h1 (by norm_num)

theorem sumAgg_cons (t : Tx) (l : List Tx) :
    sumAgg (t :: l) = aggAmount t + sumAgg l := by
  simp [sumAgg]

theorem net_eq_signed_sum (l : List Tx) :
    sumAgg (l.filter isIncome) - sumAgg (l.filter isExpense) =
      (l.map signedAgg).sum := by
  induction l with
  | nil => simp [sumAgg]
  | cons t ts ih =>
      rw [List.map_cons, List.sum_cons, ← ih]
      cases ht : t.type with
      | expense =>
          have h1 : isIncome t = false := by simp [isIncome, ht]
          have h2 : isExpense t = true := by simp [isExpense, ht]
          rw [List.filter_cons, List.filter_cons, h1, h2]
          simp only [if_true, if_false, Bool.false_eq_true, sumAgg_cons]
          simp [signedAgg, signOf, ht]
          ring
      | income =>
          have h1 : isIncome t = true := by simp [isIncome, ht]
          have h2 : isExpense t = false := by simp [isExpense, ht]
          rw [List.filter_cons, List.filter_cons, h1, h2]
          simp only [if_true, if_false, Bool.false_eq_true, sumAgg_cons]
          simp [signedAgg, signOf, ht]
          ring

theorem period_filter_trivial (txs : List Tx) :
    get_transactions_for_period txs none none none = txs := by
  simp [get_transactions_for_period, inPeriod, catFilter]

theorem total_balance_unbounded (txs : List Tx) :
    total_balance txs none none = (txs.map signedAgg).sum := by
  unfold total_balance
  rw [period_filter_trivial, net_eq_signed_sum]

theorem balancePoints_length (l : List Tx) :
    ∀ acc : ℚ, (balancePoints acc l).length = l.length := by
  induction l with
  | nil => intro acc; rfl
  | cons t ts ih => intro acc; simp [balancePoints, ih]

theorem balancePoints_map_fst (l : List Tx) :
    ∀ acc : ℚ, (balancePoints acc l).map Prod.fst = l.map Tx.date := by
  induction l with
  | nil => intro acc; rfl
  | cons t ts ih => intro acc; simp [balancePoints, ih]

theorem balancePoints_getLast (l : List Tx) :
    ∀ acc : ℚ, (balancePoints acc l).getLast? =
      l.getLast?.map (fun t => (t.date, acc + (l.map signedAgg).sum)) := by
  induction l with
  | nil => intro acc; rfl
  | cons t ts ih =>
      intro acc
      cases ts with
      | nil => simp [balancePoints]
      | cons u us =>
          have h0 : balancePoints acc (t :: u :: us) =
              (t.date, acc + signedAgg t) ::
                balancePoints (acc + signedAgg t) (u :: us) := rfl
          have h2 : balancePoints (acc + signedAgg t) (u :: us) =
              (u.date, acc + signedAgg t + signedAgg u) ::
                balancePoints (acc + signedAgg t + signedAgg u) us := rfl
          rw [h0, h2, List.getLast?_cons_cons, ← h2, ih]
          rw [List.getLast?_cons_cons]
          congr 1
          funext v
          simp only [List.map_cons, List.sum_cons, add_assoc]

theorem sortByDate_perm (txs : List Tx) : List.Perm (sortByDate txs) txs :=
  List.perm_insertionSort _ txs

theorem sortByDate_chain (txs : List Tx) :
    List.Chain' (fun a b : Tx => a.date ≤ b.date) (sortByDate txs) := by
  haveI : IsTotal Tx (fun a b => a.date ≤ b.date) :=
    ⟨fun a b => Nat.le_total a.date b.date⟩
  haveI : IsTrans Tx (fun a b => a.date ≤ b.date) :=
    ⟨fun _ _ _ hab hbc => le_trans hab hbc⟩
  exact (List.sorted_insertionSort _ txs).chain'

/-- C7: the balance series has one point per transaction, its dates are
nondecreasing (transaction date ascending), and its last point carries the
unbounded net total (income minus expense over all transactions, ignoring any
date filter). -/
theorem balance_series_shape (txs : List Tx) :
    (balance_over_time txs).length = txs.length ∧
    List.Chain' (fun p q : Nat × ℚ => p.1 ≤ q.1) (balance_over_time txs) ∧
    (balance_over_time txs).getLast? =
      (sortByDate txs).getLast?.map
        (fun t => (t.date, total_balance txs none none)) := by
  refine ⟨?_, ?_, ?_⟩
  · rw [balance_over_time, balancePoints_length]
    exact ((sortByDate_perm txs).length_eq)
  · have h1 := sortByDate_chain txs
    have h2 : List.Chain' (fun a b : Nat => a ≤ b)
        ((sortByDate txs).map Tx.date) := (List.chain'_map _).mpr h1
    rw [← balancePoints_map_fst _ 0] at h2
    exact (List.chain'_map _).mp h2
  · rw [balance_over_time, balancePoints_getLast]
    have hsum : (0 : ℚ) + ((sortByDate txs).map signedAgg).sum =
        total_balance txs none none := by
      rw [zero_add, total_balance_unbounded]
      exact ((sortByDate_perm txs).map signedAgg).sum_eq
    rw [hsum]

theorem bestRule_fold (d : List Char) (rules : List CategoryRule) :
    ∀ acc : Option CategoryRule,
      (rules.foldl (bestStep d) acc = none →
        acc = none ∧ ∀ r ∈ rules, ruleMatches d r = false) ∧
      (∀ b, rules.foldl (bestStep d) acc = some b →
        ((b ∈ rules ∧ ruleMatches d b = true ∧
            ∀ a, acc = some a → a.keyword.length ≤ b.keyword.length) ∨
          acc = some b) ∧
        ∀ r ∈ rules, ruleMatches d r = true →
          r.keyword.length ≤ b.keyword.length) := by
  induction rules with
  | nil =>
      intro acc
      exact ⟨fun h => ⟨by simpa using h, by simp⟩,
        fun b hb => ⟨Or.inr (by simpa using hb), by simp⟩⟩
  | cons r rs ih =>
      intro acc
      by_cases hm : ruleMatches d r = true
      · have key : ∃ w, bestStep d acc r = some w ∧
            r.keyword.length ≤ w.keyword.length ∧
            (∀ x, acc = some x → x.keyword.length ≤ w.keyword.length) ∧
            (w = r ∨ acc = some w) := by
          cases acc with
          | none => exact ⟨r, by simp [bestStep, hm], le_refl _, by simp, Or.inl rfl⟩
          | some a =>
              by_cases hl : r.keyword.length > a.keyword.length
              · refine ⟨r, by simp [bestStep, hm, hl], le_refl _, ?_, Or.inl rfl⟩
                intro x hx
                obtain rfl := Option.some.inj hx
                omega
              · refine ⟨a, by simp [bestStep, hm, hl], by omega, ?_, Or.inr rfl⟩
                intro x hx
                obtain rfl := Option.some.inj hx
                exact le_refl _
        obtain ⟨w, hw, hrw, haw, hwor⟩ := key
        constructor
        · intro h
          rw [List.foldl_cons, hw] at h
          exact absurd ((ih (some w)).1 h).1 (by simp)
        · intro b hb
          rw [List.foldl_cons, hw] at hb
          obtain ⟨hcase, hbound⟩ := (ih (some w)).2 b hb
          have hwb : w.keyword.length ≤ b.keyword.length := by
            rcases hcase with ⟨_, _, hl⟩ | heq
            · exact hl w rfl
            · obtain rfl : w = b := Option.some.inj heq
              exact le_refl _
          refine ⟨?_, ?_⟩
          · rcases hcase with ⟨hmem, hmb, _⟩ | heq
            · exact Or.inl ⟨List.mem_cons_of_mem _ hmem, hmb,
                fun x hx => le_trans (haw x hx) hwb⟩
            · obtain rfl : w = b := Option.some.inj heq
              rcases hwor with rfl | hacc
              · exact Or.inl ⟨List.mem_cons_self _ _, hm, haw⟩
              · exact Or.inr hacc
          · intro r' hr' hmr'
            rcases List.mem_cons.mp hr' with rfl | hr's
            · exact le_trans hrw hwb
            · exact hbound r' hr's hmr'
      · have hstep : bestStep d acc r = acc := by simp [bestStep, hm]
        constructor
        · intro h
          rw [List.foldl_cons, hstep] at h
          obtain ⟨h1, h2⟩ := (ih acc).1 h
          refine ⟨h1, ?_⟩
          intro r' hr'
          rcases List.mem_cons.mp hr' with rfl | hr's
          · simpa using hm
          · exact h2 _ hr's
        · intro b hb
          rw [List.foldl_cons, hstep] at hb
          obtain ⟨hcase, hbound⟩ := (ih acc).2 b hb
          refine ⟨?_, ?_⟩
          · rcases hcase with ⟨hmem, hmb, hlen⟩ | heq
            · exact Or.inl ⟨List.mem_cons_of_mem _ hmem, hmb, hlen⟩
            · exact Or.inr heq
          · intro r' hr' hmr'
            rcases List.mem_cons.mp hr' with rfl | hr's
            · exact absurd hmr' hm
            · exact hbound r' hr's hmr'

/-- C4: an explicit non-fallback category always wins; otherwise the resolver
returns the category of a matching keyword rule of maximal keyword length
(case-insensitive substring match), or the given category when no rule
matches; and on `{"coffee": "Food", "coffee shop": "Dining"}` with
description "coffee shop receipt" it returns "Dining". -/
theorem resolver_longest_match :
    (∀ (rules : List CategoryRule) (d : Option String) (c : String),
      c ≠ "" → c ≠ "Other" → apply_category_rule rules d c = c) ∧
    (∀ (rules : List CategoryRule) (d c : String), d ≠ "" →
      (c = "" ∨ c = "Other") →
      (apply_category_rule rules (some d) c = c ∧
          ∀ r ∈ rules, ruleMatches (lowerChars d) r = false) ∨
      (∃ b ∈ rules, ruleMatches (lowerChars d) b = true ∧
          apply_category_rule rules (some d) c = b.category ∧
          ∀ r ∈ rules, ruleMatches (lowerChars d) r = true →
            r.keyword.length ≤ b.keyword.length)) ∧
    apply_category_rule [⟨"coffee", "Food"⟩, ⟨"coffee shop", "Dining"⟩]
      (some "coffee shop receipt") "Other" = "Dining" := by
  refine ⟨?_, ?_, by decide⟩
  · intro rules d c h1 h2
    cases d with
    | none => rfl
    | some s =>
        by_cases hs : s = "" <;> simp [apply_category_rule, hs, h1, h2]
  · intro rules d c hd hc
    have hcond : ¬(c ≠ "" ∧ c ≠ "Other") := by
      rcases hc with rfl | rfl <;> simp
    cases hbr : bestRule (lowerChars d) rules with
    | none =>
        left
        refine ⟨by simp [apply_category_rule, hd, hcond, hbr], ?_⟩
        exact ((bestRule_fold (lowerChars d) rules none).1 hbr).2
    | some b =>
        right
        obtain ⟨hcase, hbound⟩ := (bestRule_fold (lowerChars d) rules none).2 b hbr
        rcases hcase with ⟨hmem, hmb, _⟩ | heq
        · exact ⟨b, hmem, hmb, by simp [apply_category_rule, hd, hcond, hbr], hbound⟩
        · exact absurd heq (by simp)

theorem freqStep_pos (f : Freq) : 0 < freqStep f := by
  cases f <;> simp [freqStep]

theorem matRule_of_le (base : String) (rates : List CurrencyRate) {cutoff : Nat}
    {r : RecurringRule} (h : r.next_run ≤ cutoff) :
    materializeRule base rates cutoff r =
      (recurTx base rates r r.next_run ::
        (materializeRule base rates cutoff
          { r with next_run := r.next_run + freqStep r.frequency }).1,
       (materializeRule base rates cutoff
          { r with next_run := r.next_run + freqStep r.frequency }).2) := by
  rw [materializeRule]
  simp [h]

theorem matRule_of_gt (base : String) (rates : List CurrencyRate) {cutoff : Nat}
    {r : RecurringRule} (h : cutoff < r.next_run) :
    materializeRule base rates cutoff r = ([], r) := by
  rw [materializeRule]
  simp [Nat.not_le_of_lt h]

/-- One-rule characterization of the materializer's while-loop: it inserts one
transaction per due occurrence, dated `next_run`, `next_run + step`, ... while
those lie at or before the cutoff, and leaves `next_run` at the first
occurrence past the cutoff. -/
theorem matRule_runs (base : String) (rates : List CurrencyRate) (cutoff : Nat)
    (r : RecurringRule) :
    ∃ k : Nat,
      (materializeRule base rates cutoff r).1 =
        (List.range k).map (fun j =>
          recurTx base rates r (r.next_run + freqStep r.frequency * j)) ∧
      (materializeRule base rates cutoff r).2 =
        { r with next_run := r.next_run + freqStep r.frequency * k } ∧
      cutoff < r.next_run + freqStep r.frequency * k ∧
      ∀ j, j < k → r.next_run + freqStep r.frequency * j ≤ cutoff := by
  suffices H : ∀ (n nr : Nat), cutoff + 1 - nr ≤ n →
      ∃ k : Nat,
        (materializeRule base rates cutoff { r with next_run := nr }).1 =
          (List.range k).map (fun j =>
            recurTx base rates r (nr + freqStep r.frequency * j)) ∧
        (materializeRule base rates cutoff { r with next_run := nr }).2 =
          { r with next_run := nr + freqStep r.frequency * k } ∧
        cutoff < nr + freqStep r.frequency * k ∧
        ∀ j, j < k → nr + freqStep r.frequency * j ≤ cutoff by
    have h := H (cutoff + 1 - r.next_run) r.next_run le_rfl
    simpa using h
  have base_case : ∀ nr : Nat, cutoff < nr →
      ∃ k : Nat,
        (materializeRule base rates cutoff { r with next_run := nr }).1 =
          (List.range k).map (fun j =>
            recurTx base rates r (nr + freqStep r.frequency * j)) ∧
        (materializeRule base rates cutoff { r with next_run := nr }).2 =
          { r with next_run := nr + freqStep r.frequency * k } ∧
        cutoff < nr + freqStep r.frequency * k ∧
        ∀ j, j < k → nr + freqStep r.frequency * j ≤ cutoff := by
    intro nr hgt
    have hgt2 : cutoff < ({ r with next_run := nr } : RecurringRule).next_run := hgt
    refine ⟨0, ?_, ?_, by simpa using hgt, fun j hj => absurd hj (by omega)⟩
    · rw [matRule_of_gt base rates hgt2]
      simp
    · rw [matRule_of_gt base rates hgt2]
      simp
  intro n
  induction n with
  | zero =>
      intro nr hnr
      exact base_case nr (by omega)
  | succ n ihn =>
      intro nr hnr
      by_cases hle : nr ≤ cutoff
      · have hspos := freqStep_pos r.frequency
        obtain ⟨k, h1, h2, h3, h4⟩ :=
          ihn (nr + freqStep r.frequency) (by omega)
        have hle2 : ({ r with next_run := nr } : RecurringRule).next_run ≤ cutoff := hle
        refine ⟨k + 1, ?_, ?_, ?_, ?_⟩
        · rw [matRule_of_le base rates hle2]
          show recurTx base rates r nr ::
              (materializeRule base rates cutoff
                { r with next_run := nr + freqStep r.frequency }).1 = _
          rw [h1, List.range_succ_eq_map, List.map_cons, List.map_map]
          congr 1
          refine List.map_congr_left ?_
          intro j _
          simp only [Function.comp_apply]
          congr 1
          rw [Nat.succ_eq_add_one]
          ring
        · rw [matRule_of_le base rates hle2]
          show (materializeRule base rates cutoff
              { r with next_run := nr + freqStep r.frequency }).2 = _
          rw [h2]
          have e : nr + freqStep r.frequency + freqStep r.frequency * k =
              nr + freqStep r.frequency * (k + 1) := by ring
          rw [e]
        · have e : nr + freqStep r.frequency + freqStep r.frequency * k =
              nr + freqStep r.frequency * (k + 1) := by ring
          rw [← e]
          exact h3
        · intro j hj
          cases j with
          | zero => simpa using hle
          | succ i =>
              have e : nr + freqStep r.frequency * (i + 1) =
                  nr + freqStep r.frequency + freqStep r.frequency * i := by ring
              rw [e]
              exact h4 i (by omega)
      · exact base_case nr (by omega)

theorem matRule_next_gt (base : String) (rates : List CurrencyRate)
    (cutoff : Nat) (r : RecurringRule) :
    cutoff < (materializeRule base rates cutoff r).2.next_run := by
  obtain ⟨k, _, h2, h3, _⟩ := matRule_runs base rates cutoff r
  rw [h2]
  exact h3

/-- Only `next_run` differs between a rule and its materialized successor. -/
def sameExceptNextRun (r r2 : RecurringRule) : Prop :=
  r2.name = r.name ∧ r2.type = r.type ∧ r2.amount = r.amount ∧
  r2.currency = r.currency ∧ r2.category = r.category ∧
  r2.description = r.description ∧ r2.frequency = r.frequency

theorem matRule_snd_fields (base : String) (rates : List CurrencyRate)
    (cutoff : Nat) (r : RecurringRule) :
    sameExceptNextRun r (materializeRule base rates cutoff r).2 := by
  obtain ⟨k, _, h2, _, _⟩ := matRule_runs base rates cutoff r
  rw [h2]
  exact ⟨rfl, rfl, rfl, rfl, rfl, rfl, rfl⟩

theorem procRec_snd (base : String) (rates : List CurrencyRate) (cutoff : Nat) :
    ∀ (rules : List RecurringRule) (txs : List Tx),
      (process_recurring base rates cutoff txs rules).2 =
        rules.map (fun r => (materializeRule base rates cutoff r).2) := by
  intro rules
  induction rules with
  | nil => intro txs; rfl
  | cons r rs ih => intro txs; simp [process_recurring, ih]

theorem procRec_stable (base : String) (rates : List CurrencyRate)
    (cutoff : Nat) :
    ∀ (rules : List RecurringRule) (txs : List Tx),
      (∀ r ∈ rules, cutoff < r.next_run) →
      process_recurring base rates cutoff txs rules = (txs, rules) := by
  intro rules
  induction rules with
  | nil => intro txs _; rfl
  | cons r rs ih =>
      intro txs h
      have hmat := matRule_of_gt base rates (h r (List.mem_cons_self _ _))
      simp [process_recurring, hmat,
        ih txs (fun x hx => h x (List.mem_cons_of_mem _ hx))]

theorem procRec_fst_append (base : String) (rates : List CurrencyRate)
    (cutoff : Nat) :
    ∀ (rules : List RecurringRule) (txs : List Tx),
      (process_recurring base rates cutoff txs rules).1 =
        txs ++ (process_recurring base rates cutoff [] rules).1 := by
  intro rules
  induction rules with
  | nil => intro txs; simp [process_recurring]
  | cons r rs ih =>
      intro txs
      simp only [process_recurring]
      rw [ih (txs ++ (materializeRule base rates cutoff r).1),
        ih (([] : List Tx) ++ (materializeRule base rates cutoff r).1)]
      simp

/-- The rule the C2 scenario materializes. -/
def ruleC2 : RecurringRule :=
  { name := "rent"
    type := .expense
    amount := 100
    currency := none
    category := "Housing"
    description := none
    frequency := .monthly
    next_run := toOrdinal 2024 1 1 }

/-- C2: the monthly rule due 2024-01-01 materialized with cutoff 2024-03-15
inserts exactly the transactions dated 2024-01-01, 2024-01-31 and 2024-03-01
(fixed 30-day steps) and leaves next_run = 2024-03-31; and in general the
materializer inserts one transaction per `next_run + step * j ≤ cutoff`,
advancing `next_run` by 1, 7 or 30 days per frequency until it passes the
cutoff. -/
theorem materializer_schedule :
    freqStep Freq.daily = 1 ∧ freqStep Freq.weekly = 7 ∧
    freqStep Freq.monthly = 30 ∧
    (process_recurring "USD" [] (toOrdinal 2024 3 15) [] [ruleC2]).1.map Tx.date =
      [toOrdinal 2024 1 1, toOrdinal 2024 1 31, toOrdinal 2024 3 1] ∧
    (process_recurring "USD" [] (toOrdinal 2024 3 15) [] [ruleC2]).1.map Tx.amount =
      [100, 100, 100] ∧
    (process_recurring "USD" [] (toOrdinal 2024 3 15) [] [ruleC2]).2 =
      [{ ruleC2 with next_run := toOrdinal 2024 3 31 }] ∧
    ∀ (base : String) (rates : List CurrencyRate) (cutoff : Nat)
      (r : RecurringRule),
      ∃ k : Nat,
        (materializeRule base rates cutoff r).1 =
          (List.range k).map (fun j =>
            recurTx base rates r (r.next_run + freqStep r.frequency * j)) ∧
        (materializeRule base rates cutoff r).2 =
          { r with next_run := r.next_run + freqStep r.frequency * k } ∧
        cutoff < r.next_run + freqStep r.frequency * k ∧
        ∀ j, j < k → r.next_run + freqStep r.frequency * j ≤ cutoff := by
  have hp : process_recurring "USD" [] (toOrdinal 2024 3 15) [] [ruleC2] =
      ((materializeRule "USD" [] (toOrdinal 2024 3 15) ruleC2).1,
       [(materializeRule "USD" [] (toOrdinal 2024 3 15) ruleC2).2]) := by
    simp [process_recurring]
  obtain ⟨k, h1, h2, h3, h4⟩ :=
    matRule_runs "USD" [] (toOrdinal 2024 3 15) ruleC2
  have hnr : ruleC2.next_run = 738886 := by decide
  have hfr : freqStep ruleC2.frequency = 30 := by decide
  have hcut : toOrdinal 2024 3 15 = 738960 := by decide
  have hk : k = 3 := by
    rw [hnr, hfr, hcut] at h3 h4
    rcases Nat.lt_or_ge k 4 with h | h
    · rcases Nat.lt_or_ge k 3 with h' | h'
      · omega
      · omega
    · have := h4 3 (by omega)
      omega
  subst hk
  refine ⟨rfl, rfl, rfl, ?_, ?_, ?_, fun base rates cutoff r =>
    matRule_runs base rates cutoff r⟩
  · rw [hp, h1]
    simp [List.range_succ, recurTx]
    refine ⟨by decide, by decide, by decide⟩
  · rw [hp, h1]
    simp [List.range_succ, recurTx, ruleC2]
  · rw [hp, h2]
    have e : ruleC2.next_run + freqStep ruleC2.frequency * 3 =
        toOrdinal 2024 3 31 := by decide
    rw [e]

/-- C3: a second materializer run with the same cutoff is a no-op — after the
first run every rule's next_run exceeds the cutoff, so the second run inserts
nothing, changes no rule, and leaves the transaction count unchanged. -/
theorem materializer_idempotent (base : String) (rates : List CurrencyRate)
    (cutoff : Nat) (txs : List Tx) (rules : List RecurringRule) :
    (∀ r ∈ (process_recurring base rates cutoff txs rules).2,
      cutoff < r.next_run) ∧
    process_recurring base rates cutoff
        (process_recurring base rates cutoff txs rules).1
        (process_recurring base rates cutoff txs rules).2 =
      process_recurring base rates cutoff txs rules ∧
    (process_recurring base rates cutoff
        (process_recurring base rates cutoff txs rules).1
        (process_recurring base rates cutoff txs rules).2).1.length =
      (process_recurring base rates cutoff txs rules).1.length := by
  have hall : ∀ r ∈ (process_recurring base rates cutoff txs rules).2,
      cutoff < r.next_run := by
    rw [procRec_snd]
    intro r hr
    obtain ⟨r0, _, rfl⟩ := List.mem_map.mp hr
    exact matRule_next_gt base rates cutoff r0
  have hfix := procRec_stable base rates cutoff
    (process_recurring base rates cutoff txs rules).2
    (process_recurring base rates cutoff txs rules).1 hall
  refine ⟨hall, ?_, ?_⟩
  · rw [hfix]
  · rw [hfix]

/-- C10: the materializer only appends new transactions and advances
`next_run`: the prior transaction list is a prefix of the result, no rule is
added or removed, and every other rule field is unchanged. -/
theorem materializer_frame (base : String) (rates : List CurrencyRate)
    (cutoff : Nat) (txs : List Tx) (rules : List RecurringRule) :
    (∃ new, (process_recurring base rates cutoff txs rules).1 = txs ++ new) ∧
    (process_recurring base rates cutoff txs rules).2.length = rules.length ∧
    List.Forall₂ sameExceptNextRun rules
      (process_recurring base rates cutoff txs rules).2 := by
  refine ⟨⟨(process_recurring base rates cutoff [] rules).1,
    procRec_fst_append base rates cutoff rules txs⟩, ?_, ?_⟩
  · rw [procRec_snd]
    simp
  · rw [procRec_snd]
    induction rules with
    | nil => exact List.Forall₂.nil
    | cons r rs ih =>
        exact List.Forall₂.cons (matRule_snd_fields base rates cutoff r) ih

theorem foldl_ruleImpact (base : String) (rates : List CurrencyRate)
    (day : Nat) :
    ∀ (rules : List RecurringRule) (x : ℚ),
      rules.foldl
          (fun acc r =>
            if ruleHit r.frequency ((day : Int) - (r.next_run : Int)) then
              acc + signOf r.type * convert_to_base base rates r.amount r.currency
            else acc)
          x =
        x + dayImpact base rates rules day := by
  intro rules
  induction rules with
  | nil => intro x; simp [dayImpact]
  | cons r rs ih =>
      intro x
      rw [List.foldl_cons]
      by_cases h : ruleHit r.frequency ((day : Int) - (r.next_run : Int)) = true
      · rw [if_pos h, ih]
        simp only [dayImpact, List.map_cons, List.sum_cons, ruleImpact, if_pos h]
        ring
      · rw [if_neg h, ih]
        simp only [dayImpact, List.map_cons, List.sum_cons, ruleImpact, if_neg h]
        ring

theorem forecastAux_spec (base : String) (rates : List CurrencyRate)
    (rules : List RecurringRule) (start dailyNet : ℚ) (today : Nat) :
    ∀ (rem i : Nat),
      forecastAux base rates rules dailyNet today rem (i + 1)
          (projectedAt base rates rules start dailyNet today i) =
        (List.range rem).map (fun j =>
          (today + i + 1 + j,
            projectedAt base rates rules start dailyNet today (i + 1 + j))) := by
  intro rem
  induction rem with
  | zero => intro i; rfl
  | succ rem ih =>
      intro i
      rw [forecastAux]
      rw [foldl_ruleImpact]
      have hstep : projectedAt base rates rules start dailyNet today i +
          dailyNet + dayImpact base rates rules (today + (i + 1)) =
          projectedAt base rates rules start dailyNet today (i + 1) := rfl
      rw [hstep, ih (i + 1)]
      rw [List.range_succ_eq_map, List.map_cons, List.map_map]
      congr 1
      refine List.map_congr_left ?_
      intro j _
      simp only [Function.comp_apply]
      have e1 : today + (i + 1) + 1 + j = today + i + 1 + j.succ := by omega
      have e2 : i + 1 + 1 + j = i + 1 + j.succ := by omega
      rw [e1, e2]

/-- C8: the forecast output has exactly `days` points, dated the `days`
consecutive days after today, and equals the claim's recurrence: each day's
balance is the previous balance plus the daily drift plus the summed signed
impacts of the recurring rules that hit that day. -/
theorem forecast_shape_and_recurrence (base : String)
    (rates : List CurrencyRate) (txs : List Tx) (rules : List RecurringRule)
    (today days : Nat) :
    (forecast_balance base rates txs rules today days).length = days ∧
    (forecast_balance base rates txs rules today days).map Prod.fst =
      (List.range days).map (fun i => today + 1 + i) ∧
    forecast_balance base rates txs rules today days =
      forecastSpec base rates rules (total_balance txs none none)
        (forecastDailyNet txs today) today days := by
  have hmain : forecast_balance base rates txs rules today days =
      forecastSpec base rates rules (total_balance txs none none)
        (forecastDailyNet txs today) today days := by
    unfold forecast_balance forecastSpec
    have h := forecastAux_spec base rates rules (total_balance txs none none)
      (forecastDailyNet txs today) today days 0
    rw [show (0 : Nat) + 1 = 1 from rfl] at h
    rw [show projectedAt base rates rules (total_balance txs none none)
        (forecastDailyNet txs today) today 0 =
        total_balance txs none none from rfl] at h
    rw [h]
    refine List.map_congr_left ?_
    intro i _
    have e1 : today + 0 + 1 + i = today + 1 + i := by omega
    have e2 : 0 + 1 + i = i + 1 := by omega
    rw [e1, e2]
  refine ⟨?_, ?_, hmain⟩
  · rw [hmain]
    unfold forecastSpec
    simp
  · rw [hmain]
    unfold forecastSpec
    rw [List.map_map]
    rfl

/-- Witness for C6 at a concrete state. -/
theorem budget_progress_percent_witness :
    ∃ e, e ∈ budget_progress [] [⟨1, 10, none, 100⟩] 5 ∧
      0 ≤ e.2.2 ∧ e.2.2 ≤ 999 := by
  have h := budget_progress_percent_guard_and_bound [] [⟨1, 10, none, 100⟩] 5
    (by simp) (by decide)
  refine ⟨(⟨1, 10, none, 100⟩, 0, 0), ?_, (h _ ?_).2.2⟩ <;>
    simp [budget_progress, get_transactions_for_period, sumAgg]

end FinanceApp
